import Mathlib

/-!
# Verification of the dependabot-configurator generator

A shallow embedding of `app/dependabot-configurator/generate.py`: the pure
decision logic of the generator (glob-based ignore matching, directory-ignore
suppression, entry synthesis, ignore-dependency application, registry
validation and attachment, and the main merge-and-emit loop), together with
theorems settling the specification claims.

Filesystem scanning (`get_directory_managers`,
`add_custom_files_to_directory_managers`), YAML (de)serialization and logging
are external collaborators; the embedding takes the scanned
`directory_managers` mapping and the loaded settings as inputs, exactly as
`main` consumes them after those steps.
-/

namespace DependabotConfigurator

/-! ## fnmatch-style glob matching

Embedding of CPython's `fnmatch.fnmatch` as used by `matches_ignore_pattern`
(POSIX `os.path.normcase` is the identity, so no case folding).  A pattern is
compiled to tokens (`*`, `?`, literal, `[...]` character class) and matched
against the whole filename.  A `[` with no closing `]` is a literal `[`;
a class may start with `!` (negation) and may contain `a-z` ranges; a `]`
directly after the opening `[` (or after `[!`) is a member of the class.
-/

/-- Split a character-class body at its closing `]`: returns the class
contents and the remainder of the pattern.  `none` when no `]` occurs. -/
def splitBracket : List Char → Option (List Char × List Char)
  | [] => none
  | c :: rest =>
    if c == ']' then some ([], rest)
    else match splitBracket rest with
      | some (a, b) => some (c :: a, b)
      | none => none

theorem splitBracket_length {cs a b : List Char}
    (h : splitBracket cs = some (a, b)) : b.length < cs.length := by
  induction cs generalizing a b with
  | nil => simp [splitBracket] at h
  | cons c rest ih =>
    rw [splitBracket] at h
    by_cases hc : c == ']'
    · rw [if_pos hc] at h
      obtain ⟨-, h2⟩ : [] = a ∧ rest = b := by simpa using h
      subst h2
      simp
    · rw [if_neg hc] at h
      cases hrec : splitBracket rest with
      | none => rw [hrec] at h; cases h
      | some p =>
        obtain ⟨a', b'⟩ := p
        rw [hrec] at h
        obtain ⟨-, h2⟩ : c :: a' = a ∧ b' = b := by simpa using h
        subst h2
        have := ih hrec
        simp only [List.length_cons]
        omega

/-- Second stage of bracket parsing, after the optional `!` has been
consumed: a `]` directly after it belongs to the class contents. -/
def bracketSplitCore (neg : Bool) (ps1 : List Char) :
    Option (Bool × List Char × List Char) :=
  match ps1 with
  | ']' :: t =>
    match splitBracket t with
    | some (a, b) => some (neg, ']' :: a, b)
    | none => none
  | _ =>
    match splitBracket ps1 with
    | some (a, b) => some (neg, a, b)
    | none => none

theorem bracketSplitCore_length {neg n : Bool} {ps1 c rest : List Char}
    (h : bracketSplitCore neg ps1 = some (n, c, rest)) :
    rest.length < ps1.length := by
  unfold bracketSplitCore at h
  split at h
  · next t =>
    cases hs : splitBracket t with
    | none => rw [hs] at h; cases h
    | some p =>
      obtain ⟨a, b⟩ := p
      rw [hs] at h
      obtain ⟨-, -, h3⟩ : neg = n ∧ ']' :: a = c ∧ b = rest := by simpa using h
      subst h3
      have := splitBracket_length hs
      simp only [List.length_cons]
      omega
  · cases hs : splitBracket ps1 with
    | none => rw [hs] at h; cases h
    | some p =>
      obtain ⟨a, b⟩ := p
      rw [hs] at h
      obtain ⟨-, -, h3⟩ : neg = n ∧ a = c ∧ b = rest := by simpa using h
      subst h3
      exact splitBracket_length hs

/-- Parse the body of a `[...]` construct (everything after the opening `[`):
negation flag, class contents, rest of the pattern. -/
def bracketSplit (ps : List Char) : Option (Bool × List Char × List Char) :=
  match ps with
  | '!' :: t => bracketSplitCore true t
  | _ => bracketSplitCore false ps

theorem bracketSplit_length {ps contents rest : List Char} {neg : Bool}
    (h : bracketSplit ps = some (neg, contents, rest)) :
    rest.length < ps.length := by
  unfold bracketSplit at h
  split at h
  · next t =>
    have := bracketSplitCore_length h
    simp only [List.length_cons]
    omega
  · exact bracketSplitCore_length h

/-- One compiled glob token. -/
inductive Tok where
  | star : Tok
  | qmark : Tok
  | lit : Char → Tok
  | cls : Bool → List Char → Tok
deriving Repr, DecidableEq

/-- Compile a glob pattern to tokens.  Structural recursion on a fuel
counter so that the kernel can evaluate it; every step consumes at least one
pattern character (`bracketSplit` consumes the whole `[...]` construct, cf.
`bracketSplit_length`), so fuel equal to the pattern length never runs
out. -/
def compileGlobAux : Nat → List Char → List Tok
  | _, [] => []
  | 0, _ => []
  | fuel + 1, '*' :: ps => Tok.star :: compileGlobAux fuel ps
  | fuel + 1, '?' :: ps => Tok.qmark :: compileGlobAux fuel ps
  | fuel + 1, '[' :: ps =>
    (match bracketSplit ps with
     | some (neg, contents, rest) => Tok.cls neg contents :: compileGlobAux fuel rest
     | none => Tok.lit '[' :: compileGlobAux fuel ps)
  | fuel + 1, c :: ps => Tok.lit c :: compileGlobAux fuel ps

/-- Compile a glob pattern to tokens. -/
def compileGlob (cs : List Char) : List Tok :=
  compileGlobAux cs.length cs

/-- Character-class membership, with `a-z` ranges; a `-` at the start or end
of the class is a literal. -/
def inClass (c : Char) : List Char → Bool
  | [] => false
  | a :: '-' :: b :: rest =>
    if rest.isEmpty && b == '-' then a == c || '-' == c || b == c
    else (a ≤ c && c ≤ b) || inClass c rest
  | a :: rest => a == c || inClass c rest

/-- Match compiled tokens against the whole string.  Fuel-based structural
recursion: every recursive call strictly decreases the combined length of
the remaining tokens and string, so fuel `ts.length + s.length + 1` never
runs out. -/
def tokMatchAux : Nat → List Tok → List Char → Bool
  | _, [], [] => true
  | _, [], _ :: _ => false
  | 0, _ :: _, _ => false
  | fuel + 1, Tok.star :: ts, s =>
    tokMatchAux fuel ts s ||
      (match s with
       | [] => false
       | _ :: s' => tokMatchAux fuel (Tok.star :: ts) s')
  | fuel + 1, Tok.qmark :: ts, _ :: s => tokMatchAux fuel ts s
  | _ + 1, Tok.qmark :: _, [] => false
  | fuel + 1, Tok.lit a :: ts, c :: s => a == c && tokMatchAux fuel ts s
  | _ + 1, Tok.lit _ :: _, [] => false
  | fuel + 1, Tok.cls neg contents :: ts, c :: s =>
    (inClass c contents != neg) && tokMatchAux fuel ts s
  | _ + 1, Tok.cls _ _ :: _, [] => false

/-- Match compiled tokens against the whole string. -/
def tokMatch (ts : List Tok) (s : List Char) : Bool :=
  tokMatchAux (ts.length + s.length + 1) ts s

/-- `fnmatch.fnmatch(filename, pattern)` on a POSIX host: full-string glob
match. -/
def fnmatch (filename pattern : String) : Bool :=
  tokMatch (compileGlob pattern.toList) filename.toList

/-- `matches_ignore_pattern`: does the filename match any glob pattern in the
list? -/
def matches_ignore_pattern (filename : String) (patterns : List String) : Bool :=
  patterns.any (fun pattern => fnmatch filename pattern)

/-! ## String utilities -/

/-- Python `s.strip("/")`: remove all leading and trailing `/` characters. -/
def stripSlashes (s : String) : String :=
  String.mk (((s.toList.dropWhile (· == '/')).reverse.dropWhile (· == '/')).reverse)

/-- Python `manager.replace('-', '_')` (single-character pattern, so a plain
character map). -/
def dashToUnderscore (s : String) : String :=
  String.mk (s.toList.map (fun c => if c == '-' then '_' else c))

/-- Python `s.startswith(p)`: string prefix test (on the character list, so
that the kernel can evaluate it). -/
def strStartsWith (s p : String) : Bool := p.toList.isPrefixOf s.toList

/-- Python `needle in hay` for strings: substring containment. -/
def strContains (hay needle : List Char) : Bool :=
  needle.isPrefixOf hay ||
    (match hay with
     | [] => false
     | _ :: t => strContains t needle)

/-- Lexicographic order on code points, as Python compares strings. -/
def charListLe : List Char → List Char → Bool
  | [], _ => true
  | _ :: _, [] => false
  | a :: as, b :: bs =>
    decide (a.toNat < b.toNat) || (a.toNat == b.toNat && charListLe as bs)

/-- Boolean string order used to embed Python `sorted` (comparison by
Unicode code points). -/
def strLe (a b : String) : Bool := charListLe a.toList b.toList

theorem charListLe_total (a b : List Char) :
    charListLe a b = true ∨ charListLe b a = true := by
  induction a generalizing b with
  | nil => left; rfl
  | cons x xs ih =>
    cases b with
    | nil => right; rfl
    | cons y ys =>
      rcases Nat.lt_trichotomy x.toNat y.toNat with h | h | h
      · left; simp [charListLe, h]
      · rcases ih ys with h2 | h2
        · left; simp [charListLe, h, h2]
        · right; simp [charListLe, h.symm, h2]
      · right; simp [charListLe, h]

theorem charListLe_trans {a b c : List Char} (h1 : charListLe a b = true)
    (h2 : charListLe b c = true) : charListLe a c = true := by
  induction a generalizing b c with
  | nil => rfl
  | cons x xs ih =>
    cases b with
    | nil => simp [charListLe] at h1
    | cons y ys =>
      cases c with
      | nil => simp [charListLe] at h2
      | cons z zs =>
        simp only [charListLe, Bool.or_eq_true, Bool.and_eq_true,
          decide_eq_true_eq, beq_iff_eq] at h1 h2 ⊢
        rcases h1 with h1 | ⟨h1e, h1r⟩
        · rcases h2 with h2 | ⟨h2e, h2r⟩
          · exact Or.inl (Nat.lt_trans h1 h2)
          · exact Or.inl (h2e ▸ h1)
        · rcases h2 with h2 | ⟨h2e, h2r⟩
          · exact Or.inl (h1e ▸ h2)
          · exact Or.inr ⟨h1e.trans h2e, ih h1r h2r⟩

theorem strLe_total (a b : String) : strLe a b = true ∨ strLe b a = true :=
  charListLe_total _ _

theorem strLe_trans {a b c : String} (h1 : strLe a b = true)
    (h2 : strLe b c = true) : strLe a c = true :=
  charListLe_trans h1 h2

/-! ## Data model -/

/-- A YAML scalar-or-list value as it occurs in registry declarations. -/
inductive RegValue where
  | str : String → RegValue
  | strList : List String → RegValue
deriving Repr, DecidableEq

/-- A `schedule` block. -/
structure Schedule where
  interval : String
  day : String
  time : String
  timezone : String
deriving Repr, DecidableEq

/-- One named group definition inside an entry's `groups` mapping. -/
structure GroupDef where
  applies_to : String
  update_types : List String
deriving Repr, DecidableEq

/-- One element of an entry's `ignore` list. -/
structure IgnoreBlock where
  dependency_name : String
  update_types : List String
deriving Repr, DecidableEq

/-- An emitted dependabot update entry.  Optional fields model YAML keys that
may be absent (`groups` is always set by both constructors but `add_ignores`
checks for its presence, so it is optional here too). -/
structure Entry where
  package_ecosystem : String
  directory : String
  schedule : Schedule
  allow : List String
  open_pull_requests_limit : Int
  groups : Option (List (String × GroupDef))
  target_branch : Option String
  labels : List String
  registries : Option (List String)
  ignore : Option (List IgnoreBlock)
deriving Repr, DecidableEq

/-- One record of `registry_map` as built by `add_registries`. -/
structure RegistryInfo where
  rtype : Option RegValue
  applies_to : RegValue
  config : List (String × RegValue)
deriving Repr, DecidableEq

/-- A declared registry from the settings file: an ordered field map. -/
structure RegDecl where
  fields : List (String × RegValue)
deriving Repr, DecidableEq

/-- One `ignore-dependency` rule from the settings file. -/
structure IgnoreDep where
  package_ecosystem : Option String
  dependency_name : Option String
  update_types : List String
deriving Repr, DecidableEq

/-- The settings record produced by `load_configurator_settings` (custom
files are folded into the directory manifest upstream of the embedded
logic, so they do not appear here). -/
structure Settings where
  dependencies : List IgnoreDep
  directories : List String
  file_patterns : List String
  registries : List RegDecl
deriving Repr, DecidableEq

/-- The generated document: `version: 2`, optional `registries` section and
the annotated `updates` list (each entry paired with the single-line comment
placed before it). -/
structure OutputDocument where
  version : Nat
  registries : Option (List (String × List (String × RegValue)))
  updates : List (String × Entry)
deriving Repr, DecidableEq

/-! ## Entry constructors -/

/-- The directory-ignore test inlined at the top of
`create_dependabot_update_entry`: after stripping leading/trailing slashes
from both sides, the directory is suppressed when it equals an
`ignore-directory` entry or starts with that entry followed by `/`. -/
def directory_ignored (dir_path : String) (ignore_directories : List String) : Bool :=
  ignore_directories.any (fun ignored_dir =>
    stripSlashes dir_path == stripSlashes ignored_dir ||
      strStartsWith (stripSlashes dir_path) (stripSlashes ignored_dir ++ "/"))

/-- Python truthiness-based applicability test
`if not applies_to or manager in applies_to` (a string value uses substring
containment, a list uses membership). -/
def regApplies (manager : String) : RegValue → Bool
  | RegValue.str s => s.isEmpty || strContains s.toList manager.toList
  | RegValue.strList l => l.isEmpty || l.contains manager

/-- The registry-collection loop of `create_dependabot_update_entry`:
names of map entries whose `applies-to` is empty or includes the manager,
in map (declaration) order. -/
def depApplicableRegistries (registry_map : List (String × RegistryInfo))
    (manager : String) : List String :=
  (registry_map.filter (fun p => regApplies manager p.2.applies_to)).map Prod.fst

/-- The registry-collection loop of `create_security_update_entry` (the
source duplicates the loop verbatim in both constructors). -/
def secApplicableRegistries (registry_map : List (String × RegistryInfo))
    (manager : String) : List String :=
  (registry_map.filter (fun p => regApplies manager p.2.applies_to)).map Prod.fst

/-- `create_dependabot_update_entry`: `none` when the directory matches an
ignore-directory rule, otherwise the version-update entry. -/
def create_dependabot_update_entry (manager dir_path : String)
    (schedule : Schedule) (open_pr_limit : Int) (main_branch : String)
    (ignore_directories : List String)
    (registry_map : List (String × RegistryInfo)) : Option Entry :=
  if directory_ignored dir_path ignore_directories then none
  else
    some
      { package_ecosystem := manager
        directory := dir_path
        schedule := schedule
        allow := ["direct"]
        open_pull_requests_limit := open_pr_limit
        groups := some [(dashToUnderscore manager ++ "_updates",
          { applies_to := "version-updates", update_types := ["minor", "patch"] })]
        target_branch := some main_branch
        labels := ["version-update", "dependencies"]
        registries :=
          (let applicable := depApplicableRegistries registry_map manager
           if applicable.isEmpty then none else some applicable)
        ignore := none }

/-- `create_security_update_entry`: always produced; PR limit 0, `prodsec`
group, allow rule `all`/`direct` per the transitive-security flag. -/
def create_security_update_entry (manager dir_path : String)
    (schedule : Schedule) (transitive_security : Bool)
    (registry_map : List (String × RegistryInfo)) : Entry :=
  { package_ecosystem := manager
    directory := dir_path
    schedule := schedule
    allow := [if transitive_security then "all" else "direct"]
    open_pull_requests_limit := 0
    groups := some [("prodsec",
      { applies_to := "security-updates", update_types := ["minor", "patch"] })]
    target_branch := none
    labels := ["security-update", "dependencies"]
    registries :=
      (let applicable := secApplicableRegistries registry_map manager
       if applicable.isEmpty then none else some applicable)
    ignore := none }

/-! ## Ignore-dependency application (`add_ignores`) -/

/-- Python `"prodsec" in update["groups"]` (key membership). -/
def hasGroupProdsec (e : Entry) : Bool :=
  match e.groups with
  | some gs => gs.any (fun g => g.1 == "prodsec")
  | none => false

/-- The fresh ignore block built once per rule: `str(...)` coercion turns a
missing dependency name into the literal string `"None"`. -/
def ignoreBlockOf (rule : IgnoreDep) : IgnoreBlock :=
  { dependency_name :=
      (match rule.dependency_name with
       | some s => s
       | none => "None")
    update_types := rule.update_types }

/-- The attachment condition of the inner loop of `add_ignores`. -/
def ignoreRuleMatches (rule : IgnoreDep) (e : Entry) : Bool :=
  rule.package_ecosystem == some e.package_ecosystem &&
    e.groups.isSome && !hasGroupProdsec e

/-- One rule applied to one entry: append a copy of the rule's ignore block
to the entry's `ignore` list (creating the list if absent) when the
condition holds. -/
def applyIgnoreRule (rule : IgnoreDep) (e : Entry) : Entry :=
  if ignoreRuleMatches rule e then
    { e with ignore := some (e.ignore.getD [] ++ [ignoreBlockOf rule]) }
  else e

/-- All rules applied to one entry, in rule order. -/
def addIgnoresEntry (rules : List IgnoreDep) (e : Entry) : Entry :=
  rules.foldl (fun acc rule => applyIgnoreRule rule acc) e

/-- `add_ignores`: outer loop over the `ignore-dependency` rules, inner loop
mutating each update in place. -/
def add_ignores (rules : List IgnoreDep) (updates : List Entry) : List Entry :=
  rules.foldl (fun ups rule => ups.map (fun u => applyIgnoreRule rule u)) updates

/-! ## Registry validation (`add_registries`) -/

/-- Python dict insertion: overwrite in place when the key exists, append
otherwise. -/
def dictInsert {β : Type} (m : List (String × β)) (k : String) (v : β) :
    List (String × β) :=
  if m.any (fun p => p.1 == k) then
    m.map (fun p => if p.1 == k then (k, v) else p)
  else m ++ [(k, v)]

/-- `registry.get("name")` with Python truthiness: `none` when the key is
absent or its value is falsy (empty string / empty list).  A non-string
name would not be usable as a dict key in the source, so only string names
survive. -/
def regName (r : RegDecl) : Option String :=
  match r.fields.lookup "name" with
  | some (RegValue.str s) => if s.isEmpty then none else some s
  | _ => none

/-- Both skip conditions of the `add_registries` loop combined: a truthy
name and all of `name`, `type`, `url` present as keys. -/
def regValid (r : RegDecl) : Bool :=
  (regName r).isSome &&
    ["name", "type", "url"].all (fun f => r.fields.any (fun p => p.1 == f))

/-- The per-registry public config: every declared field except `name` and
`applies-to`, in declaration order. -/
def publicConfig (r : RegDecl) : List (String × RegValue) :=
  r.fields.filter (fun p => !(p.1 == "name") && !(p.1 == "applies-to"))

/-- The `registry_map` record stored for a surviving registry. -/
def registryInfoOf (r : RegDecl) : RegistryInfo :=
  { rtype := r.fields.lookup "type"
    applies_to := (r.fields.lookup "applies-to").getD (RegValue.strList [])
    config := publicConfig r }

/-- The loop body of `add_registries`, building the output `registries`
section and the `registry_map` in parallel. -/
def addRegistriesLoop (configs : List RegDecl)
    (sectionAcc : List (String × List (String × RegValue)))
    (mapAcc : List (String × RegistryInfo)) :
    List (String × List (String × RegValue)) × List (String × RegistryInfo) :=
  match configs with
  | [] => (sectionAcc, mapAcc)
  | r :: rest =>
    match regName r with
    | none => addRegistriesLoop rest sectionAcc mapAcc
    | some name =>
      if ["name", "type", "url"].all (fun f => r.fields.any (fun p => p.1 == f)) then
        addRegistriesLoop rest (dictInsert sectionAcc name (publicConfig r))
          (dictInsert mapAcc name (registryInfoOf r))
      else addRegistriesLoop rest sectionAcc mapAcc

/-- `add_registries`: empty declarations short-circuit to an empty map; the
first component is the `registries` section contents, the second the
`registry_map` returned for entry construction. -/
def add_registries (registry_configs : List RegDecl) :
    List (String × List (String × RegValue)) × List (String × RegistryInfo) :=
  if registry_configs.isEmpty then ([], [])
  else addRegistriesLoop registry_configs [] []

/-! ## The main merge-and-emit loop -/

/-- The parsed CLI arguments consumed by `main` (the repo path only feeds
the filesystem scan, which is upstream of the embedding). -/
structure Args where
  open_pull_requests_limit : Int
  main_branch : String
  transitive_security : Bool
deriving Repr, DecidableEq

/-- The scanned (and custom-file-merged) `directory_managers` mapping:
directory path to the ordered list of (manager, filename) records found
there.  A Python dict, so its keys are unique. -/
abbrev DirectoryManifest : Type := List (String × List (String × String))

/-- Schedule selection: docker updates on Wednesday, everything else on
Monday. -/
def scheduleFor (manager : String) : Schedule :=
  if manager == "docker" then
    { interval := "weekly", day := "wednesday", time := "08:00",
      timezone := "America/Chicago" }
  else
    { interval := "weekly", day := "monday", time := "08:00",
      timezone := "America/Chicago" }

/-- The single-line annotation comment placed before an entry:
`f" {dir_path.strip('/') or '/'} {manager} {kind} updates"`. -/
def entryComment (dir_path manager kind : String) : String :=
  " " ++ (if stripSlashes dir_path == "" then "/" else stripSlashes dir_path) ++
    " " ++ manager ++ " " ++ kind ++ " updates"

/-- The file-pattern suppression check: some manifest filename recorded for
this manager in this directory matches some configured ignore glob. -/
def skipVersionForManager (ignore_file_patterns : List String)
    (manager_files : List (String × String)) (manager : String) : Bool :=
  (manager_files.filter (fun p => p.1 == manager)).any (fun p =>
    ignore_file_patterns.any (fun pattern =>
      matches_ignore_pattern p.2 [pattern]))

/-- The relation sorted by: `strLe` as a decidable Prop-valued relation. -/
def strLeR (a b : String) : Prop := strLe a b = true

instance : DecidableRel strLeR := fun a b => instDecidableEqBool (strLe a b) true

instance : IsTotal String strLeR := ⟨strLe_total⟩

instance : IsTrans String strLeR := ⟨fun _ _ _ => strLe_trans⟩

/-- Key order on the items of a string-keyed mapping. -/
def keyLeR {β : Type} (a b : String × β) : Prop := strLe a.1 b.1 = true

instance {β : Type} : DecidableRel (keyLeR (β := β)) :=
  fun a b => instDecidableEqBool (strLe a.1 b.1) true

instance {β : Type} : IsTotal (String × β) keyLeR := ⟨fun a b => strLe_total a.1 b.1⟩

instance {β : Type} : IsTrans (String × β) keyLeR := ⟨fun _ _ _ => strLe_trans⟩

/-- Python `sorted`: a stable sort by code-point order.  (Insertion sort;
the source's `sorted` is a stable mergesort, and the two agree on every
input this program sorts: dict items with unique keys and deduplicated
manager names, where no two distinct elements compare equal.) -/
def pySorted (l : List String) : List String := l.insertionSort strLeR

/-- Python `sorted(d.items())` for a dict `d`: items sorted by key. -/
def pySortedItems {β : Type} (l : List (String × β)) : List (String × β) :=
  l.insertionSort keyLeR

/-- `sorted(list(set(...)))`: the distinct managers of a directory in
sorted order. -/
def sortedUniqueManagers (managers : List String) : List String :=
  pySorted managers.dedup

/-- The body of the inner loop of `main` for one (directory, manager) pair:
the optional annotated version-update entry followed by the annotated
security-update entry. -/
def entriesFor (open_pr_limit : Int) (main_branch : String)
    (transitive_security : Bool) (ignore_directories ignore_file_patterns : List String)
    (registry_map : List (String × RegistryInfo)) (dir_path : String)
    (manager_files : List (String × String)) (manager : String) :
    List (String × Entry) :=
  let skip := skipVersionForManager ignore_file_patterns manager_files manager
  let schedule := scheduleFor manager
  let version_part :=
    if 0 < open_pr_limit ∧ skip = false then
      match create_dependabot_update_entry manager dir_path schedule
          open_pr_limit main_branch ignore_directories registry_map with
      | some e => [(entryComment dir_path manager "version", e)]
      | none => []
    else []
  let security_part :=
    [(entryComment dir_path manager "security",
      create_security_update_entry manager dir_path schedule
        transitive_security registry_map)]
  version_part ++ security_part

/-- The full double loop of `main`: directories in sorted order, then the
distinct managers of each directory in sorted order. -/
def mainUpdates (args : Args) (ignore_directories ignore_file_patterns : List String)
    (registry_map : List (String × RegistryInfo))
    (directory_managers : DirectoryManifest) : List (String × Entry) :=
  (pySortedItems directory_managers).flatMap
    (fun dm =>
      (sortedUniqueManagers (dm.2.map Prod.fst)).flatMap
        (fun manager =>
          entriesFor args.open_pull_requests_limit args.main_branch
            args.transitive_security ignore_directories ignore_file_patterns
            registry_map dm.1 dm.2 manager))

/-- `main` from parsed arguments onward: registry validation, the
merge-and-emit loop, conditional ignore-dependency application, and document
assembly.  The filesystem scan result is passed in as `directory_managers`. -/
def main (args : Args) (settings : Settings)
    (directory_managers : DirectoryManifest) : OutputDocument :=
  let reg := add_registries settings.registries
  let updates := mainUpdates args settings.directories settings.file_patterns
    reg.2 directory_managers
  let updates :=
    if settings.dependencies.isEmpty then updates
    else updates.map (fun p => (p.1, addIgnoresEntry settings.dependencies p.2))
  { version := 2
    registries := if reg.1.isEmpty then none else some reg.1
    updates := updates }

/-! ## Entry classification and basic lemmas -/

/-- A version-update entry, recognized by its label. -/
def isVersionUpdate (e : Entry) : Bool := e.labels.contains "version-update"

/-- A security-update entry, recognized by its label. -/
def isSecurityUpdate (e : Entry) : Bool := e.labels.contains "security-update"

/-- The entry with its (only mutable) `ignore` field erased; used to express
that `add_ignores` touches nothing else. -/
def eraseIgnore (e : Entry) : Entry := { e with ignore := none }

theorem strLe_refl (a : String) : strLe a a = true := by
  show charListLe a.toList a.toList = true
  induction a.toList with
  | nil => rfl
  | cons x xs ih => simp [charListLe, ih]

theorem create_dependabot_update_entry_none_iff
    {manager dir_path : String} {schedule : Schedule} {limit : Int}
    {branch : String} {dirs : List String} {rm : List (String × RegistryInfo)} :
    create_dependabot_update_entry manager dir_path schedule limit branch dirs rm
      = none ↔ directory_ignored dir_path dirs = true := by
  unfold create_dependabot_update_entry
  split <;> simp_all

theorem create_dependabot_update_entry_some
    {manager dir_path : String} {schedule : Schedule} {limit : Int}
    {branch : String} {dirs : List String} {rm : List (String × RegistryInfo)}
    {e : Entry}
    (h : create_dependabot_update_entry manager dir_path schedule limit branch
      dirs rm = some e) :
    e.package_ecosystem = manager ∧ e.directory = dir_path ∧
      e.labels = ["version-update", "dependencies"] ∧
      e.groups = some [(dashToUnderscore manager ++ "_updates",
        { applies_to := "version-updates", update_types := ["minor", "patch"] })] ∧
      e.allow = ["direct"] ∧ e.open_pull_requests_limit = limit ∧
      e.registries = (if (depApplicableRegistries rm manager).isEmpty then none
        else some (depApplicableRegistries rm manager)) := by
  unfold create_dependabot_update_entry at h
  split at h
  · cases h
  · cases h
    refine ⟨rfl, rfl, rfl, rfl, rfl, rfl, rfl⟩

theorem version_groups_ne_prodsec (manager : String) :
    dashToUnderscore manager ++ "_updates" ≠ "prodsec" := by
  intro h
  have hl := congrArg String.length h
  rw [String.length_append] at hl
  have h8 : ("_updates" : String).length = 8 := rfl
  have h7 : ("prodsec" : String).length = 7 := rfl
  omega

theorem hasGroupProdsec_of_create_dep
    {manager dir_path : String} {schedule : Schedule} {limit : Int}
    {branch : String} {dirs : List String} {rm : List (String × RegistryInfo)}
    {e : Entry}
    (h : create_dependabot_update_entry manager dir_path schedule limit branch
      dirs rm = some e) : hasGroupProdsec e = false := by
  obtain ⟨-, -, -, hg, -⟩ := create_dependabot_update_entry_some h
  simp only [hasGroupProdsec, hg, List.any_cons, List.any_nil, Bool.or_false]
  simp only [beq_eq_false_iff_ne, ne_eq]
  exact version_groups_ne_prodsec manager

theorem hasGroupProdsec_security
    {manager dir_path : String} {schedule : Schedule} {ts : Bool}
    {rm : List (String × RegistryInfo)} :
    hasGroupProdsec (create_security_update_entry manager dir_path schedule ts rm)
      = true := by
  simp [hasGroupProdsec, create_security_update_entry]

/-! ## `add_ignores` structure lemmas -/

theorem applyIgnoreRule_eraseIgnore (rule : IgnoreDep) (e : Entry) :
    eraseIgnore (applyIgnoreRule rule e) = eraseIgnore e := by
  unfold applyIgnoreRule
  split <;> rfl

theorem addIgnoresEntry_eraseIgnore (rules : List IgnoreDep) (e : Entry) :
    eraseIgnore (addIgnoresEntry rules e) = eraseIgnore e := by
  induction rules generalizing e with
  | nil => rfl
  | cons r rs ih =>
    show eraseIgnore (addIgnoresEntry rs (applyIgnoreRule r e)) = eraseIgnore e
    rw [ih, applyIgnoreRule_eraseIgnore]

theorem addIgnoresEntry_package_ecosystem (rules : List IgnoreDep) (e : Entry) :
    (addIgnoresEntry rules e).package_ecosystem = e.package_ecosystem := by
  have h := congrArg Entry.package_ecosystem (addIgnoresEntry_eraseIgnore rules e)
  exact h

theorem addIgnoresEntry_directory (rules : List IgnoreDep) (e : Entry) :
    (addIgnoresEntry rules e).directory = e.directory := by
  have h := congrArg Entry.directory (addIgnoresEntry_eraseIgnore rules e)
  exact h

theorem addIgnoresEntry_labels (rules : List IgnoreDep) (e : Entry) :
    (addIgnoresEntry rules e).labels = e.labels := by
  have h := congrArg Entry.labels (addIgnoresEntry_eraseIgnore rules e)
  exact h

theorem addIgnoresEntry_groups (rules : List IgnoreDep) (e : Entry) :
    (addIgnoresEntry rules e).groups = e.groups := by
  have h := congrArg Entry.groups (addIgnoresEntry_eraseIgnore rules e)
  exact h

theorem addIgnoresEntry_allow (rules : List IgnoreDep) (e : Entry) :
    (addIgnoresEntry rules e).allow = e.allow := by
  have h := congrArg Entry.allow (addIgnoresEntry_eraseIgnore rules e)
  exact h

theorem addIgnoresEntry_prodsec (rules : List IgnoreDep) (e : Entry)
    (h : hasGroupProdsec e = true) : addIgnoresEntry rules e = e := by
  induction rules with
  | nil => rfl
  | cons r rs ih =>
    show addIgnoresEntry rs (applyIgnoreRule r e) = e
    have : applyIgnoreRule r e = e := by
      unfold applyIgnoreRule
      rw [if_neg]
      simp [ignoreRuleMatches, h]
    rw [this, ih]

/-- The nested loops of `add_ignores` (rules outside, entries inside) agree
with applying all rules to each entry independently. -/
theorem add_ignores_eq_map (rules : List IgnoreDep) (updates : List Entry) :
    add_ignores rules updates = updates.map (fun e => addIgnoresEntry rules e) := by
  induction rules generalizing updates with
  | nil => simp [add_ignores, addIgnoresEntry]
  | cons r rs ih =>
    show add_ignores rs (updates.map (fun u => applyIgnoreRule r u)) = _
    rw [ih, List.map_map]
    rfl

/-! ## Generic block-decomposition lemmas for the main loop -/

theorem countP_flatMap {α β : Type} (l : List α) (f : α → List β) (p : β → Bool) :
    (l.flatMap f).countP p = (l.map (fun a => (f a).countP p)).sum := by
  induction l with
  | nil => rfl
  | cons a t ih => rw [List.flatMap_cons, List.countP_append, ih]; rfl

theorem filter_flatMap {α β : Type} (l : List α) (f : α → List β) (p : β → Bool) :
    (l.flatMap f).filter p = l.flatMap (fun a => (f a).filter p) := by
  induction l with
  | nil => rfl
  | cons a t ih => rw [List.flatMap_cons, List.filter_append, ih, List.flatMap_cons]

/-- In a list whose keys are distinct, a concatenation of per-element blocks
in which every block except the distinguished element's is empty collapses
to that one block. -/
theorem flatMap_eq_of_unique {α γ : Type} {l : List α} (key : α → String)
    {g : α → List γ} {a0 : α} (hnd : (l.map key).Nodup) (hmem : a0 ∈ l)
    (hz : ∀ a ∈ l, key a ≠ key a0 → g a = []) : l.flatMap g = g a0 := by
  induction l with
  | nil => cases hmem
  | cons a t ih =>
    rw [List.map_cons, List.nodup_cons] at hnd
    rw [List.flatMap_cons]
    rcases List.mem_cons.mp hmem with rfl | hmem'
    · have ht : t.flatMap g = [] := by
        apply List.flatMap_eq_nil_iff.mpr
        intro b hb
        exact hz b (List.mem_cons_of_mem _ hb)
          (fun hk => hnd.1 (hk ▸ List.mem_map_of_mem key hb))
      rw [ht, List.append_nil]
    · have ha : g a = [] := by
        apply hz a (List.mem_cons_self _ _)
        intro hk
        exact hnd.1 (hk ▸ List.mem_map_of_mem key hmem')
      rw [ha, List.nil_append]
      exact ih hnd.2 hmem' (fun b hb => hz b (List.mem_cons_of_mem _ hb))

/-- Sum form of `flatMap_eq_of_unique` for entry counting. -/
theorem sum_map_eq_of_unique {α : Type} {l : List α} (key : α → String)
    {g : α → Nat} {a0 : α} (hnd : (l.map key).Nodup) (hmem : a0 ∈ l)
    (hz : ∀ a ∈ l, key a ≠ key a0 → g a = 0) : (l.map g).sum = g a0 := by
  induction l with
  | nil => cases hmem
  | cons a t ih =>
    rw [List.map_cons, List.nodup_cons] at hnd
    rw [List.map_cons, List.sum_cons]
    rcases List.mem_cons.mp hmem with rfl | hmem'
    · have ht : (t.map g).sum = 0 := by
        apply List.sum_eq_zero_iff.mpr
        intro x hx
        obtain ⟨b, hb, rfl⟩ := List.mem_map.mp hx
        exact hz b (List.mem_cons_of_mem _ hb)
          (fun hk => hnd.1 (hk ▸ List.mem_map_of_mem key hb))
      rw [ht]
      omega
    · have ha : g a = 0 := by
        apply hz a (List.mem_cons_self _ _)
        intro hk
        exact hnd.1 (hk ▸ List.mem_map_of_mem key hmem')
      rw [ha, ih hnd.2 hmem' (fun b hb => hz b (List.mem_cons_of_mem _ hb))]
      omega

/-! ## Characterization of a single (directory, manager) block -/

theorem isSecurityUpdate_of_version_labels {e : Entry}
    (h : e.labels = ["version-update", "dependencies"]) :
    isSecurityUpdate e = false := by
  unfold isSecurityUpdate
  rw [h]
  decide

theorem isVersionUpdate_of_version_labels {e : Entry}
    (h : e.labels = ["version-update", "dependencies"]) :
    isVersionUpdate e = true := by
  unfold isVersionUpdate
  rw [h]
  decide

theorem security_labels {manager dir_path : String} {schedule : Schedule}
    {ts : Bool} {rm : List (String × RegistryInfo)} :
    (create_security_update_entry manager dir_path schedule ts rm).labels
      = ["security-update", "dependencies"] := rfl

theorem mem_entriesFor {limit : Int} {branch : String} {ts : Bool}
    {dirs pats : List String} {rm : List (String × RegistryInfo)}
    {d : String} {fs : List (String × String)} {m : String}
    {p : String × Entry}
    (hp : p ∈ entriesFor limit branch ts dirs pats rm d fs m) :
    p.2.directory = d ∧ p.2.package_ecosystem = m ∧
      ((p.1 = entryComment d m "version" ∧
          p.2.labels = ["version-update", "dependencies"] ∧
          hasGroupProdsec p.2 = false ∧ 0 < limit) ∨
        p = (entryComment d m "security",
          create_security_update_entry m d (scheduleFor m) ts rm)) := by
  simp only [entriesFor, List.mem_append] at hp
  rcases hp with hp | hp
  · split at hp
    next hcond =>
      cases hc : create_dependabot_update_entry m d (scheduleFor m) limit branch
        dirs rm with
      | none => rw [hc] at hp; cases hp
      | some e =>
        rw [hc] at hp
        obtain rfl : p = (entryComment d m "version", e) := by simpa using hp
        obtain ⟨h1, h2, h3, -⟩ := create_dependabot_update_entry_some hc
        exact ⟨h2, h1, Or.inl ⟨rfl, h3, hasGroupProdsec_of_create_dep hc, hcond.1⟩⟩
    next hcond => cases hp
  · obtain rfl : p = (entryComment d m "security",
        create_security_update_entry m d (scheduleFor m) ts rm) := by simpa using hp
    exact ⟨rfl, rfl, Or.inr rfl⟩

theorem mem_entriesFor_directory {limit : Int} {branch : String} {ts : Bool}
    {dirs pats : List String} {rm : List (String × RegistryInfo)}
    {d : String} {fs : List (String × String)} {m : String}
    {p : String × Entry}
    (hp : p ∈ entriesFor limit branch ts dirs pats rm d fs m) :
    p.2.directory = d := (mem_entriesFor hp).1

theorem countP_isVersion_entriesFor (limit : Int) (branch : String) (ts : Bool)
    (dirs pats : List String) (rm : List (String × RegistryInfo))
    (d : String) (fs : List (String × String)) (m : String) :
    (entriesFor limit branch ts dirs pats rm d fs m).countP
        (fun p => isVersionUpdate p.2) =
      if 0 < limit ∧ skipVersionForManager pats fs m = false ∧
          directory_ignored d dirs = false then 1 else 0 := by
  simp only [entriesFor]
  rw [List.countP_append]
  have hsec : List.countP (fun p => isVersionUpdate p.2)
      [(entryComment d m "security",
        create_security_update_entry m d (scheduleFor m) ts rm)] = 0 := by
    have h0 : isVersionUpdate
        (create_security_update_entry m d (scheduleFor m) ts rm) = false := rfl
    simp [List.countP_cons, h0]
  rw [hsec, Nat.add_zero]
  by_cases h1 : 0 < limit ∧ skipVersionForManager pats fs m = false
  · rw [if_pos h1]
    cases hc : create_dependabot_update_entry m d (scheduleFor m) limit branch
        dirs rm with
    | none =>
      have hig : directory_ignored d dirs = true :=
        create_dependabot_update_entry_none_iff.mp hc
      rw [if_neg (by simp [hig])]
      rfl
    | some e =>
      have hig : directory_ignored d dirs = false := by
        by_contra hne
        have : directory_ignored d dirs = true := by
          cases hd : directory_ignored d dirs
          · exact absurd hd hne
          · rfl
        rw [create_dependabot_update_entry_none_iff.mpr this] at hc
        cases hc
      rw [if_pos ⟨h1.1, h1.2, hig⟩]
      obtain ⟨-, -, h3, -⟩ := create_dependabot_update_entry_some hc
      simp [List.countP_cons, isVersionUpdate_of_version_labels h3]
  · rw [if_neg h1, if_neg (fun hcon => h1 ⟨hcon.1, hcon.2.1⟩)]
    rfl

theorem countP_isSecurity_entriesFor (limit : Int) (branch : String) (ts : Bool)
    (dirs pats : List String) (rm : List (String × RegistryInfo))
    (d : String) (fs : List (String × String)) (m : String) :
    (entriesFor limit branch ts dirs pats rm d fs m).countP
      (fun p => isSecurityUpdate p.2) = 1 := by
  simp only [entriesFor]
  rw [List.countP_append]
  have hsec : List.countP (fun p => isSecurityUpdate p.2)
      [(entryComment d m "security",
        create_security_update_entry m d (scheduleFor m) ts rm)] = 1 := by
    have h0 : isSecurityUpdate
        (create_security_update_entry m d (scheduleFor m) ts rm) = true := rfl
    simp [List.countP_cons, h0]
  rw [hsec]
  have hver : List.countP (fun p => isSecurityUpdate p.2)
      (if 0 < limit ∧ skipVersionForManager pats fs m = false then
        match create_dependabot_update_entry m d (scheduleFor m) limit branch
            dirs rm with
        | some e => [(entryComment d m "version", e)]
        | none => []
      else []) = 0 := by
    split
    · cases hc : create_dependabot_update_entry m d (scheduleFor m) limit branch
        dirs rm with
      | none => rfl
      | some e =>
        obtain ⟨-, -, h3, -⟩ := create_dependabot_update_entry_some hc
        simp [List.countP_cons, isSecurityUpdate_of_version_labels h3]
    · rfl
  rw [hver]

theorem filter_isSecurity_entriesFor (limit : Int) (branch : String) (ts : Bool)
    (dirs pats : List String) (rm : List (String × RegistryInfo))
    (d : String) (fs : List (String × String)) (m : String) :
    (entriesFor limit branch ts dirs pats rm d fs m).filter
        (fun p => isSecurityUpdate p.2) =
      [(entryComment d m "security",
        create_security_update_entry m d (scheduleFor m) ts rm)] := by
  simp only [entriesFor]
  rw [List.filter_append]
  have hver : List.filter (fun p => isSecurityUpdate p.2)
      (if 0 < limit ∧ skipVersionForManager pats fs m = false then
        match create_dependabot_update_entry m d (scheduleFor m) limit branch
            dirs rm with
        | some e => [(entryComment d m "version", e)]
        | none => []
      else []) = [] := by
    split
    · cases hc : create_dependabot_update_entry m d (scheduleFor m) limit branch
        dirs rm with
      | none => rfl
      | some e =>
        obtain ⟨-, -, h3, -⟩ := create_dependabot_update_entry_some hc
        simp [List.filter_cons, isSecurityUpdate_of_version_labels h3]
    · rfl
  rw [hver, List.nil_append]
  have : isSecurityUpdate
      (create_security_update_entry m d (scheduleFor m) ts rm) = true := rfl
  simp [List.filter_cons, this]

/-! ## Main-loop decomposition lemmas -/

theorem nodup_keys_pySortedItems {β : Type} {dm : List (String × β)}
    (h : (dm.map Prod.fst).Nodup) :
    ((pySortedItems dm).map Prod.fst).Nodup :=
  (((List.perm_insertionSort keyLeR dm).map Prod.fst).nodup_iff).mpr h

theorem mem_pySortedItems {β : Type} {dm : List (String × β)}
    {x : String × β} : x ∈ pySortedItems dm ↔ x ∈ dm :=
  List.mem_insertionSort keyLeR

theorem nodup_sortedUniqueManagers (l : List String) :
    (sortedUniqueManagers l).Nodup :=
  ((List.perm_insertionSort strLeR l.dedup).nodup_iff).mpr (List.nodup_dedup l)

theorem mem_sortedUniqueManagers {l : List String} {m : String} :
    m ∈ sortedUniqueManagers l ↔ m ∈ l :=
  (List.mem_insertionSort strLeR).trans List.mem_dedup

theorem sorted_sortedUniqueManagers (l : List String) :
    (sortedUniqueManagers l).Sorted strLeR :=
  List.sorted_insertionSort strLeR l.dedup

/-- `main`'s update list is the raw loop output with the ignore-dependency
rules applied entry-wise (a no-op pass when there are no rules). -/
theorem main_updates_eq_map (args : Args) (settings : Settings)
    (dm : DirectoryManifest) :
    (main args settings dm).updates =
      (mainUpdates args settings.directories settings.file_patterns
          (add_registries settings.registries).2 dm).map
        (fun p => (p.1, addIgnoresEntry settings.dependencies p.2)) := by
  simp only [main]
  by_cases h : settings.dependencies.isEmpty
  · rw [if_pos h]
    obtain hnil : settings.dependencies = [] := List.isEmpty_iff.mp h
    rw [hnil]
    have : (fun p : String × Entry => (p.1, addIgnoresEntry [] p.2)) =
        fun p : String × Entry => p := by
      funext p
      rfl
    rw [this, List.map_id']
  · rw [if_neg h]

theorem mem_mainUpdates {args : Args} {dirs pats : List String}
    {rm : List (String × RegistryInfo)} {dm : DirectoryManifest}
    {p : String × Entry}
    (hp : p ∈ mainUpdates args dirs pats rm dm) :
    ∃ d fs m, (d, fs) ∈ dm ∧ m ∈ fs.map Prod.fst ∧
      p ∈ entriesFor args.open_pull_requests_limit args.main_branch
        args.transitive_security dirs pats rm d fs m := by
  unfold mainUpdates at hp
  obtain ⟨a, ha, hp2⟩ := List.mem_flatMap.mp hp
  obtain ⟨m, hm, hp3⟩ := List.mem_flatMap.mp hp2
  exact ⟨a.1, a.2, m, mem_pySortedItems.mp ha,
    mem_sortedUniqueManagers.mp hm, hp3⟩

/-- Counting entries of one (directory, ecosystem) pair in the final update
list reduces to counting inside that pair's block, for any classification
`q` that does not look at the `ignore` field. -/
theorem countP_main_at_pair (args : Args) (settings : Settings)
    (dm : DirectoryManifest) (d : String) (fs : List (String × String))
    (m : String) (q : Entry → Bool)
    (hq : ∀ e, q (eraseIgnore e) = q e)
    (hnd : (dm.map Prod.fst).Nodup) (hmem : (d, fs) ∈ dm)
    (hm : m ∈ fs.map Prod.fst) :
    (main args settings dm).updates.countP
        (fun p => p.2.directory == d && p.2.package_ecosystem == m && q p.2) =
      (entriesFor args.open_pull_requests_limit args.main_branch
          args.transitive_security settings.directories settings.file_patterns
          (add_registries settings.registries).2 d fs m).countP
        (fun p => q p.2) := by
  have hqaie : ∀ rules e, q (addIgnoresEntry rules e) = q e := by
    intro rules e
    have h1 : q (eraseIgnore (addIgnoresEntry rules e)) =
        q (eraseIgnore e) := by rw [addIgnoresEntry_eraseIgnore]
    rw [hq, hq] at h1
    exact h1
  rw [main_updates_eq_map, List.countP_map]
  have hcongr : List.countP
      ((fun p : String × Entry =>
          p.2.directory == d && p.2.package_ecosystem == m && q p.2) ∘
        (fun p : String × Entry => (p.1, addIgnoresEntry settings.dependencies p.2)))
      (mainUpdates args settings.directories settings.file_patterns
        (add_registries settings.registries).2 dm) =
    List.countP
      (fun p : String × Entry =>
        p.2.directory == d && p.2.package_ecosystem == m && q p.2)
      (mainUpdates args settings.directories settings.file_patterns
        (add_registries settings.registries).2 dm) := by
    apply List.countP_congr
    intro x hx
    simp only [Function.comp_apply]
    rw [addIgnoresEntry_directory, addIgnoresEntry_package_ecosystem, hqaie]
  rw [hcongr]
  unfold mainUpdates
  rw [countP_flatMap]
  rw [sum_map_eq_of_unique Prod.fst (nodup_keys_pySortedItems hnd)
    (mem_pySortedItems.mpr hmem)]
  · rw [countP_flatMap]
    rw [sum_map_eq_of_unique id
      (by simpa using nodup_sortedUniqueManagers (fs.map Prod.fst))
      (mem_sortedUniqueManagers.mpr hm)]
    · apply List.countP_congr
      intro x hx
      obtain ⟨h1, h2, -⟩ := mem_entriesFor hx
      simp [h1, h2]
    · intro m2 hm2 hne
      apply List.countP_eq_zero.mpr
      intro x hx
      obtain ⟨-, h2, -⟩ := mem_entriesFor hx
      simp only [id_eq] at hne
      simp [h2, hne]
  · intro a ha hne
    apply Nat.eq_zero_of_le_zero
    apply Nat.le_of_eq
    rw [countP_flatMap]
    apply List.sum_eq_zero_iff.mpr
    intro x hx
    obtain ⟨m2, hm2, rfl⟩ := List.mem_map.mp hx
    apply List.countP_eq_zero.mpr
    intro y hy
    obtain ⟨h1, -, -⟩ := mem_entriesFor hy
    simp [h1, hne]

/-- Filtering the final update list down to one directory, for any
classification `q` that does not look at the `ignore` field. -/
theorem filter_main_at_dir (args : Args) (settings : Settings)
    (dm : DirectoryManifest) (d : String) (fs : List (String × String))
    (q : Entry → Bool) (hq : ∀ e, q (eraseIgnore e) = q e)
    (hnd : (dm.map Prod.fst).Nodup) (hmem : (d, fs) ∈ dm) :
    (main args settings dm).updates.filter
        (fun p => p.2.directory == d && q p.2) =
      ((sortedUniqueManagers (fs.map Prod.fst)).flatMap (fun m =>
          (entriesFor args.open_pull_requests_limit args.main_branch
            args.transitive_security settings.directories settings.file_patterns
            (add_registries settings.registries).2 d fs m).filter
          (fun p => q p.2))).map
        (fun p => (p.1, addIgnoresEntry settings.dependencies p.2)) := by
  have hqaie : ∀ rules e, q (addIgnoresEntry rules e) = q e := by
    intro rules e
    have h1 : q (eraseIgnore (addIgnoresEntry rules e)) =
        q (eraseIgnore e) := by rw [addIgnoresEntry_eraseIgnore]
    rw [hq, hq] at h1
    exact h1
  rw [main_updates_eq_map, List.filter_map]
  congr 1
  have hcongr : List.filter
      ((fun p : String × Entry => p.2.directory == d && q p.2) ∘
        (fun p : String × Entry => (p.1, addIgnoresEntry settings.dependencies p.2)))
      (mainUpdates args settings.directories settings.file_patterns
        (add_registries settings.registries).2 dm) =
    List.filter (fun p : String × Entry => p.2.directory == d && q p.2)
      (mainUpdates args settings.directories settings.file_patterns
        (add_registries settings.registries).2 dm) := by
    apply List.filter_congr
    intro x hx
    simp only [Function.comp_apply]
    rw [addIgnoresEntry_directory, hqaie]
  rw [hcongr]
  unfold mainUpdates
  rw [filter_flatMap]
  rw [flatMap_eq_of_unique Prod.fst (nodup_keys_pySortedItems hnd)
    (mem_pySortedItems.mpr hmem)]
  · rw [filter_flatMap]
    congr 1
    funext m2
    apply List.filter_congr
    intro x hx
    obtain ⟨h1, -, -⟩ := mem_entriesFor hx
    simp [h1]
  · intro a ha hne
    rw [filter_flatMap]
    apply List.flatMap_eq_nil_iff.mpr
    intro x hx
    apply List.filter_eq_nil_iff.mpr
    intro y hy
    obtain ⟨h1, -, -⟩ := mem_entriesFor hy
    simp [h1, hne]

/-- Filtering the final update list down to one (directory, ecosystem) pair,
for any classification `q` that does not look at the `ignore` field. -/
theorem filter_main_at_pair (args : Args) (settings : Settings)
    (dm : DirectoryManifest) (d : String) (fs : List (String × String))
    (m : String) (q : Entry → Bool)
    (hq : ∀ e, q (eraseIgnore e) = q e)
    (hnd : (dm.map Prod.fst).Nodup) (hmem : (d, fs) ∈ dm)
    (hm : m ∈ fs.map Prod.fst) :
    (main args settings dm).updates.filter
        (fun p => p.2.directory == d && p.2.package_ecosystem == m && q p.2) =
      ((entriesFor args.open_pull_requests_limit args.main_branch
          args.transitive_security settings.directories settings.file_patterns
          (add_registries settings.registries).2 d fs m).filter
        (fun p => q p.2)).map
        (fun p => (p.1, addIgnoresEntry settings.dependencies p.2)) := by
  have hqaie : ∀ rules e, q (addIgnoresEntry rules e) = q e := by
    intro rules e
    have h1 : q (eraseIgnore (addIgnoresEntry rules e)) =
        q (eraseIgnore e) := by rw [addIgnoresEntry_eraseIgnore]
    rw [hq, hq] at h1
    exact h1
  rw [main_updates_eq_map, List.filter_map]
  congr 1
  have hcongr : List.filter
      ((fun p : String × Entry =>
          p.2.directory == d && p.2.package_ecosystem == m && q p.2) ∘
        (fun p : String × Entry => (p.1, addIgnoresEntry settings.dependencies p.2)))
      (mainUpdates args settings.directories settings.file_patterns
        (add_registries settings.registries).2 dm) =
    List.filter
      (fun p : String × Entry =>
        p.2.directory == d && p.2.package_ecosystem == m && q p.2)
      (mainUpdates args settings.directories settings.file_patterns
        (add_registries settings.registries).2 dm) := by
    apply List.filter_congr
    intro x hx
    simp only [Function.comp_apply]
    rw [addIgnoresEntry_directory, addIgnoresEntry_package_ecosystem, hqaie]
  rw [hcongr]
  unfold mainUpdates
  rw [filter_flatMap]
  rw [flatMap_eq_of_unique Prod.fst (nodup_keys_pySortedItems hnd)
    (mem_pySortedItems.mpr hmem)]
  · rw [filter_flatMap]
    rw [flatMap_eq_of_unique id
      (by simpa using nodup_sortedUniqueManagers (fs.map Prod.fst))
      (mem_sortedUniqueManagers.mpr hm)]
    · apply List.filter_congr
      intro x hx
      obtain ⟨h1, h2, -⟩ := mem_entriesFor hx
      simp [h1, h2]
    · intro m2 hm2 hne
      apply List.filter_eq_nil_iff.mpr
      intro y hy
      obtain ⟨-, h2, -⟩ := mem_entriesFor hy
      simp only [id_eq] at hne
      simp [h2, hne]
  · intro a ha hne
    rw [filter_flatMap]
    apply List.flatMap_eq_nil_iff.mpr
    intro x hx
    apply List.filter_eq_nil_iff.mpr
    intro y hy
    obtain ⟨h1, -, -⟩ := mem_entriesFor hy
    simp [h1, hne]

/-! ## Transitive-security frame lemmas (for the flag-flip claim) -/

/-- The entry transformation that flipping `transitive_security` from false
to true induces: security entries (recognized by their `prodsec` group) get
the allow rule `all`; nothing else changes. -/
def securityAllowAll (e : Entry) : Entry :=
  if hasGroupProdsec e then { e with allow := ["all"] } else e

theorem hasGroupProdsec_securityAllowAll (e : Entry) :
    hasGroupProdsec (securityAllowAll e) = hasGroupProdsec e := by
  unfold securityAllowAll
  split <;> rfl

theorem hasGroupProdsec_congr {x y : Entry} (h : x.groups = y.groups) :
    hasGroupProdsec x = hasGroupProdsec y := by
  unfold hasGroupProdsec
  rw [h]

theorem entriesFor_transitive (limit : Int) (branch : String)
    (dirs pats : List String) (rm : List (String × RegistryInfo))
    (d : String) (fs : List (String × String)) (m : String) :
    entriesFor limit branch true dirs pats rm d fs m =
      (entriesFor limit branch false dirs pats rm d fs m).map
        (fun p => (p.1, securityAllowAll p.2)) := by
  simp only [entriesFor]
  rw [List.map_append]
  congr 1
  split
  · cases hc : create_dependabot_update_entry m d (scheduleFor m) limit branch
        dirs rm with
    | none => rfl
    | some e =>
      have he : securityAllowAll e = e := by
        unfold securityAllowAll
        rw [if_neg]
        rw [hasGroupProdsec_of_create_dep hc]
        simp
      simp [he]
  · rfl

theorem addIgnoresEntry_securityAllowAll (rules : List IgnoreDep) (e : Entry) :
    addIgnoresEntry rules (securityAllowAll e) =
      securityAllowAll (addIgnoresEntry rules e) := by
  cases h : hasGroupProdsec e with
  | true =>
    have h1 : securityAllowAll e = { e with allow := ["all"] } := by
      unfold securityAllowAll
      rw [if_pos h]
    have h2 : hasGroupProdsec ({ e with allow := ["all"] } : Entry) = true := by
      rw [hasGroupProdsec_congr (x := { e with allow := ["all"] }) (y := e) rfl]
      exact h
    rw [h1, addIgnoresEntry_prodsec _ _ h2, addIgnoresEntry_prodsec _ _ h,
      securityAllowAll, if_pos h]
  | false =>
    have h1 : securityAllowAll e = e := by
      unfold securityAllowAll
      rw [if_neg (by simp [h])]
    have h2 : hasGroupProdsec (addIgnoresEntry rules e) = false := by
      rw [hasGroupProdsec_congr (addIgnoresEntry_groups rules e)]
      exact h
    rw [h1, securityAllowAll, if_neg (by simp [h2])]

theorem mainUpdates_transitive (limit : Int) (branch : String)
    (dirs pats : List String) (rm : List (String × RegistryInfo))
    (dm : DirectoryManifest) :
    mainUpdates ⟨limit, branch, true⟩ dirs pats rm dm =
      (mainUpdates ⟨limit, branch, false⟩ dirs pats rm dm).map
        (fun p => (p.1, securityAllowAll p.2)) := by
  unfold mainUpdates
  rw [List.map_flatMap]
  congr 1
  funext a
  rw [List.map_flatMap]
  congr 1
  funext m
  exact entriesFor_transitive limit branch dirs pats rm a.1 a.2 m

theorem OutputDocument.ext_of (x y : OutputDocument)
    (h1 : x.version = y.version) (h2 : x.registries = y.registries)
    (h3 : x.updates = y.updates) : x = y := by
  cases x
  cases y
  simp only at h1 h2 h3
  rw [h1, h2, h3]

/-- A concatenation of blocks whose elements each carry their block's key,
with the keys in sorted order, is itself sorted. -/
theorem sorted_flatMap_const {α : Type} {l : List α} (key : α → String)
    (f : α → List String) (hsort : (l.map key).Pairwise strLeR)
    (hconst : ∀ a ∈ l, ∀ s ∈ f a, s = key a) :
    (l.flatMap f).Pairwise strLeR := by
  induction l with
  | nil => exact List.Pairwise.nil
  | cons a t ih =>
    rw [List.map_cons, List.pairwise_cons] at hsort
    rw [List.flatMap_cons, List.pairwise_append]
    refine ⟨?_, ?_, ?_⟩
    · apply List.pairwise_of_forall_mem_list
      intro x hx y hy
      rw [hconst a (List.mem_cons_self _ _) x hx,
        hconst a (List.mem_cons_self _ _) y hy]
      exact strLe_refl _
    · exact ih hsort.2 (fun b hb => hconst b (List.mem_cons_of_mem _ hb))
    · intro x hx y hy
      obtain ⟨b, hb, hyb⟩ := List.mem_flatMap.mp hy
      rw [hconst a (List.mem_cons_self _ _) x hx, hconst b
        (List.mem_cons_of_mem _ hb) y hyb]
      exact hsort.1 (key b) (List.mem_map_of_mem key hb)

theorem flatMap_pure {α : Type} (l : List α) :
    (l.flatMap fun x => [x]) = l := by
  induction l with
  | nil => rfl
  | cons a t ih => rw [List.flatMap_cons, ih]; rfl

/-! ## Claim theorems -/

/-- C3: version updates for a directory are suppressed (the version-update
constructor returns `none`) if and only if some configured ignore-directory
entry, after trimming leading/trailing slashes from both sides, equals the
directory path or is a `/`-separated prefix of it — a pure string comparison
on the embedded paths, with no filesystem involvement. -/
theorem claim_c3_directory_ignore_prefix (manager dir_path : String)
    (schedule : Schedule) (limit : Int) (branch : String)
    (rm : List (String × RegistryInfo)) (dirs : List String) :
    (create_dependabot_update_entry manager dir_path schedule limit branch dirs
        rm = none ↔
      ∃ ig ∈ dirs, stripSlashes dir_path = stripSlashes ig ∨
        strStartsWith (stripSlashes dir_path) (stripSlashes ig ++ "/") = true) ∧
    (directory_ignored dir_path dirs = true ↔
      ∃ ig ∈ dirs, stripSlashes dir_path = stripSlashes ig ∨
        strStartsWith (stripSlashes dir_path) (stripSlashes ig ++ "/") = true) := by
  have h2 : directory_ignored dir_path dirs = true ↔
      ∃ ig ∈ dirs, stripSlashes dir_path = stripSlashes ig ∨
        strStartsWith (stripSlashes dir_path) (stripSlashes ig ++ "/") = true := by
    unfold directory_ignored
    rw [List.any_eq_true]
    constructor
    · rintro ⟨ig, hig, hcond⟩
      rcases Bool.or_eq_true_iff.mp hcond with hc | hc
      · exact ⟨ig, hig, Or.inl (by simpa using hc)⟩
      · exact ⟨ig, hig, Or.inr hc⟩
    · rintro ⟨ig, hig, hcond⟩
      refine ⟨ig, hig, Bool.or_eq_true_iff.mpr ?_⟩
      rcases hcond with hc | hc
      · exact Or.inl (by simpa using hc)
      · exact Or.inr hc
  exact ⟨create_dependabot_update_entry_none_iff.trans h2, h2⟩

/-- C10: the registry-name list computed by the version-update constructor
and the one computed by the security-update constructor (two verbatim copies
of the same loop in the source) are equal, so for one (directory, ecosystem)
pair both emitted entry subtypes carry identical `registries` fields
(or both omit the field). -/
theorem claim_c10_registry_refinement (rm : List (String × RegistryInfo))
    (m d : String) (schedule : Schedule) (limit : Int) (branch : String)
    (dirs : List String) (ts : Bool) :
    secApplicableRegistries rm m = depApplicableRegistries rm m ∧
    ∀ e, create_dependabot_update_entry m d schedule limit branch dirs rm =
        some e →
      e.registries = (create_security_update_entry m d schedule ts rm).registries
    := by
  refine ⟨rfl, ?_⟩
  intro e he
  obtain ⟨-, -, -, -, -, -, h7⟩ := create_dependabot_update_entry_some he
  rw [h7]
  rfl

theorem claim_c10_witness :
    ∃ e, create_dependabot_update_entry "pip" "/" (scheduleFor "pip") 1 "main"
        [] [("pypi", ⟨some (RegValue.str "python-index"),
          RegValue.strList ["pip"], []⟩)] = some e ∧
      e.registries = (create_security_update_entry "pip" "/" (scheduleFor "pip")
        false [("pypi", ⟨some (RegValue.str "python-index"),
          RegValue.strList ["pip"], []⟩)]).registries := by
  refine ⟨_, rfl, ?_⟩
  exact (claim_c10_registry_refinement
    [("pypi", ⟨some (RegValue.str "python-index"), RegValue.strList ["pip"], []⟩)]
    "pip" "/" (scheduleFor "pip") 1 "main" [] false).2 _ rfl

theorem applyIgnoreRule_matches_congr (r2 rule : IgnoreDep) (e : Entry) :
    ignoreRuleMatches r2 (applyIgnoreRule rule e) = ignoreRuleMatches r2 e := by
  have hpe : (applyIgnoreRule rule e).package_ecosystem = e.package_ecosystem := by
    have h := congrArg Entry.package_ecosystem (applyIgnoreRule_eraseIgnore rule e)
    exact h
  have hg : (applyIgnoreRule rule e).groups = e.groups := by
    have h := congrArg Entry.groups (applyIgnoreRule_eraseIgnore rule e)
    exact h
  unfold ignoreRuleMatches
  rw [hpe, hg, hasGroupProdsec_congr hg]

/-- C6: applying the configured ignore-dependency rules appends, to each
entry's `ignore` list (created on demand), one fresh `{dependency-name,
update-types}` block per rule whose ecosystem matches the entry and whose
target entry carries groups without the `prodsec` marker — in rule order,
without deduplication — and leaves every entry whose groups contain
`prodsec` (i.e. every security entry) completely unchanged. -/
theorem claim_c6_ignore_rules (rules : List IgnoreDep) (updates : List Entry) :
    add_ignores rules updates = updates.map (fun e => addIgnoresEntry rules e) ∧
    (∀ e : Entry, (addIgnoresEntry rules e).ignore.getD [] =
      e.ignore.getD [] ++
        (rules.filter (fun r => ignoreRuleMatches r e)).map ignoreBlockOf) ∧
    (∀ e : Entry, hasGroupProdsec e = true → addIgnoresEntry rules e = e) := by
  refine ⟨add_ignores_eq_map rules updates, ?_, fun e h =>
    addIgnoresEntry_prodsec rules e h⟩
  intro e
  induction rules generalizing e with
  | nil => simp [addIgnoresEntry]
  | cons r rs ih =>
    have hstep : addIgnoresEntry (r :: rs) e =
        addIgnoresEntry rs (applyIgnoreRule r e) := rfl
    rw [hstep, ih]
    have hfc : rs.filter (fun r2 => ignoreRuleMatches r2 (applyIgnoreRule r e)) =
        rs.filter (fun r2 => ignoreRuleMatches r2 e) := by
      apply List.filter_congr
      intro r2 hr2
      exact applyIgnoreRule_matches_congr r2 r e
    rw [hfc]
    cases hm : ignoreRuleMatches r e with
    | true =>
      have happ : (applyIgnoreRule r e).ignore.getD [] =
          e.ignore.getD [] ++ [ignoreBlockOf r] := by
        unfold applyIgnoreRule
        rw [if_pos hm]
        rfl
      rw [happ]
      simp [List.filter_cons, hm, List.append_assoc]
    | false =>
      have happ : applyIgnoreRule r e = e := by
        unfold applyIgnoreRule
        rw [if_neg (by simp [hm])]
      rw [happ]
      simp [List.filter_cons, hm]

theorem claim_c6_witness :
    (addIgnoresEntry
        [⟨some "pip", some "requests", ["version-update:semver-major"]⟩,
          ⟨some "pip", some "requests", ["version-update:semver-major"]⟩]
        ⟨"pip", "/", scheduleFor "pip", ["direct"], 1,
          some [("pip_updates", ⟨"version-updates", ["minor", "patch"]⟩)],
          some "main", ["version-update", "dependencies"], none, none⟩).ignore.getD []
      =
      (⟨"pip", "/", scheduleFor "pip", ["direct"], 1,
        some [("pip_updates", ⟨"version-updates", ["minor", "patch"]⟩)],
        some "main", ["version-update", "dependencies"], none,
        none⟩ : Entry).ignore.getD [] ++
      (([⟨some "pip", some "requests", ["version-update:semver-major"]⟩,
          ⟨some "pip", some "requests", ["version-update:semver-major"]⟩] :
          List IgnoreDep).filter (fun r => ignoreRuleMatches r
            ⟨"pip", "/", scheduleFor "pip", ["direct"], 1,
              some [("pip_updates", ⟨"version-updates", ["minor", "patch"]⟩)],
              some "main", ["version-update", "dependencies"], none,
              none⟩)).map ignoreBlockOf ∧
    addIgnoresEntry [⟨some "pip", some "requests", ["version-update:semver-major"]⟩]
        (create_security_update_entry "pip" "/" (scheduleFor "pip") false []) =
      create_security_update_entry "pip" "/" (scheduleFor "pip") false [] := by
  constructor
  · exact (claim_c6_ignore_rules
      [⟨some "pip", some "requests", ["version-update:semver-major"]⟩,
        ⟨some "pip", some "requests", ["version-update:semver-major"]⟩] []).2.1 _
  · exact (claim_c6_ignore_rules
      [⟨some "pip", some "requests", ["version-update:semver-major"]⟩] []).2.2 _
      hasGroupProdsec_security

theorem keyed_unique {β : Type} {l : List (String × β)}
    (hnd : (l.map Prod.fst).Nodup) {k : String} {v v2 : β}
    (h1 : (k, v) ∈ l) (h2 : (k, v2) ∈ l) : v = v2 := by
  induction l with
  | nil => cases h1
  | cons a t ih =>
    rw [List.map_cons, List.nodup_cons] at hnd
    rcases List.mem_cons.mp h1 with rfl | h1t
    · rcases List.mem_cons.mp h2 with heq | h2t
      · have := congrArg Prod.snd heq
        simpa using this.symm
      · exact absurd (List.mem_map_of_mem Prod.fst h2t) hnd.1
    · rcases List.mem_cons.mp h2 with rfl | h2t
      · exact absurd (List.mem_map_of_mem Prod.fst h1t) hnd.1
      · exact ih hnd.2 h1t h2t

/-- C5: a registry's name is attached to an entry's `registries` list exactly
when its applicability list is empty or contains the entry's ecosystem; the
attached list is a sublist of the registry map's name list (declaration
order); and both constructors omit the field entirely when no registry
applies. -/
theorem claim_c5_registry_attachment (rm : List (String × RegistryInfo))
    (m : String) (d : String) (schedule : Schedule) (limit : Int)
    (branch : String) (dirs : List String) (ts : Bool)
    (hnd : (rm.map Prod.fst).Nodup) :
    (∀ name info, (name, info) ∈ rm → ∀ l,
      info.applies_to = RegValue.strList l →
      (name ∈ depApplicableRegistries rm m ↔ (l = [] ∨ m ∈ l))) ∧
    (depApplicableRegistries rm m).Sublist (rm.map Prod.fst) ∧
    ((create_security_update_entry m d schedule ts rm).registries =
      if (depApplicableRegistries rm m).isEmpty then none
      else some (depApplicableRegistries rm m)) ∧
    (∀ e, create_dependabot_update_entry m d schedule limit branch dirs rm =
        some e →
      e.registries = if (depApplicableRegistries rm m).isEmpty then none
        else some (depApplicableRegistries rm m)) := by
  refine ⟨?_, ?_, rfl, ?_⟩
  · intro name info hmem l hl
    unfold depApplicableRegistries
    constructor
    · intro hin
      obtain ⟨p, hp, hpe⟩ := List.mem_map.mp hin
      obtain ⟨hprm, happ⟩ := List.mem_filter.mp hp
      have hpv : p = (name, p.2) := by
        rw [← hpe]
      rw [hpv] at hprm
      have : p.2 = info := keyed_unique hnd hprm hmem
      rw [this, hl] at happ
      simp only [regApplies, Bool.or_eq_true, List.isEmpty_iff] at happ
      rcases happ with h | h
      · exact Or.inl h
      · exact Or.inr (by simpa using h)
    · intro hcond
      apply List.mem_map.mpr
      refine ⟨(name, info), List.mem_filter.mpr ⟨hmem, ?_⟩, rfl⟩
      rw [hl]
      simp only [regApplies, Bool.or_eq_true, List.isEmpty_iff]
      rcases hcond with h | h
      · exact Or.inl h
      · exact Or.inr (by simpa using h)
  · exact (List.filter_sublist rm).map Prod.fst
  · intro e he
    obtain ⟨-, -, -, -, -, -, h7⟩ := create_dependabot_update_entry_some he
    exact h7

theorem claim_c5_witness :
    ("pypi" ∈ depApplicableRegistries
        [("pypi", ⟨some (RegValue.str "python-index"), RegValue.strList ["pip"],
          []⟩)] "pip" ↔
      ((["pip"] : List String) = [] ∨ "pip" ∈ (["pip"] : List String))) ∧
    (depApplicableRegistries
        [("pypi", ⟨some (RegValue.str "python-index"), RegValue.strList ["pip"],
          []⟩)] "pip").Sublist ["pypi"] := by
  constructor
  · exact (claim_c5_registry_attachment
      [("pypi", ⟨some (RegValue.str "python-index"), RegValue.strList ["pip"], []⟩)]
      "pip" "/" (scheduleFor "pip") 1 "main" [] false (by decide)).1
      "pypi" ⟨some (RegValue.str "python-index"), RegValue.strList ["pip"], []⟩
      (by decide) ["pip"] rfl
  · exact (claim_c5_registry_attachment
      [("pypi", ⟨some (RegValue.str "python-index"), RegValue.strList ["pip"], []⟩)]
      "pip" "/" (scheduleFor "pip") 1 "main" [] false (by decide)).2.1

/-- C1: for a detected (directory, ecosystem) pair, exactly one
version-update entry is emitted when the open-PR limit is positive, no
recorded manifest filename matches a configured ignore-file glob, and the
directory is not suppressed by an ignore-directory rule — and none
otherwise; with an open-PR limit of 0 no version-update entry is emitted at
all, while the pair still yields exactly one security-update entry. -/
theorem claim_c1_version_entry_iff (limit : Int) (branch : String) (ts : Bool)
    (settings : Settings) (dm : DirectoryManifest) (d : String)
    (fs : List (String × String)) (m : String)
    (hnd : (dm.map Prod.fst).Nodup) (hmem : (d, fs) ∈ dm)
    (hm : m ∈ fs.map Prod.fst) :
    ((main ⟨limit, branch, ts⟩ settings dm).updates.countP
        (fun p => p.2.directory == d && p.2.package_ecosystem == m &&
          isVersionUpdate p.2) =
      if 0 < limit ∧ skipVersionForManager settings.file_patterns fs m = false ∧
          directory_ignored d settings.directories = false then 1 else 0) ∧
    (limit = 0 → (main ⟨limit, branch, ts⟩ settings dm).updates.countP
        (fun p => isVersionUpdate p.2) = 0) ∧
    ((main ⟨limit, branch, ts⟩ settings dm).updates.countP
        (fun p => p.2.directory == d && p.2.package_ecosystem == m &&
          isSecurityUpdate p.2) = 1) := by
  refine ⟨?_, ?_, ?_⟩
  · rw [countP_main_at_pair ⟨limit, branch, ts⟩ settings dm d fs m
      isVersionUpdate (fun e => rfl) hnd hmem hm]
    exact countP_isVersion_entriesFor limit branch ts settings.directories
      settings.file_patterns (add_registries settings.registries).2 d fs m
  · intro h0
    rw [main_updates_eq_map, List.countP_map]
    have hc : List.countP
        ((fun p : String × Entry => isVersionUpdate p.2) ∘
          (fun p : String × Entry =>
            (p.1, addIgnoresEntry settings.dependencies p.2)))
        (mainUpdates ⟨limit, branch, ts⟩ settings.directories
          settings.file_patterns (add_registries settings.registries).2 dm) =
      List.countP (fun p : String × Entry => isVersionUpdate p.2)
        (mainUpdates ⟨limit, branch, ts⟩ settings.directories
          settings.file_patterns (add_registries settings.registries).2 dm) := by
      apply List.countP_congr
      intro x hx
      simp only [Function.comp_apply]
      show isVersionUpdate (addIgnoresEntry settings.dependencies x.2) = true ↔
        isVersionUpdate x.2 = true
      unfold isVersionUpdate
      rw [addIgnoresEntry_labels]
    rw [hc]
    apply List.countP_eq_zero.mpr
    intro p hp
    obtain ⟨d2, fs2, m2, -, -, hpe⟩ := mem_mainUpdates hp
    obtain ⟨-, -, hcases⟩ := mem_entriesFor hpe
    rcases hcases with ⟨-, -, -, hpos⟩ | rfl
    · subst h0
      have hcontra : (0 : Int) < 0 := hpos
      exact absurd hcontra (by omega)
    · intro hcon
      have : isVersionUpdate (create_security_update_entry m2 d2
          (scheduleFor m2) ts (add_registries settings.registries).2) = false :=
        rfl
      rw [this] at hcon
      cases hcon
  · rw [countP_main_at_pair ⟨limit, branch, ts⟩ settings dm d fs m
      isSecurityUpdate (fun e => rfl) hnd hmem hm]
    exact countP_isSecurity_entriesFor limit branch ts settings.directories
      settings.file_patterns (add_registries settings.registries).2 d fs m

theorem claim_c1_witness :
    ((main ⟨1, "main", false⟩ ⟨[], [], [], []⟩
        [("/", [("pip", "requirements.txt")])]).updates.countP
      (fun p => p.2.directory == "/" && p.2.package_ecosystem == "pip" &&
        isVersionUpdate p.2) =
      if 0 < (1 : Int) ∧
          skipVersionForManager [] [("pip", "requirements.txt")] "pip" = false ∧
          directory_ignored "/" [] = false then 1 else 0) ∧
    ((main ⟨1, "main", false⟩ ⟨[], [], [], []⟩
        [("/", [("pip", "requirements.txt")])]).updates.countP
      (fun p => p.2.directory == "/" && p.2.package_ecosystem == "pip" &&
        isSecurityUpdate p.2) = 1) := by
  have h := claim_c1_version_entry_iff 1 "main" false ⟨[], [], [], []⟩
    [("/", [("pip", "requirements.txt")])] "/" [("pip", "requirements.txt")]
    "pip" (by decide) (by decide) (by decide)
  exact ⟨h.1, h.2.2⟩

/-- C2: every detected (directory, ecosystem) pair yields exactly one
security-update entry — whatever the PR limit, ignore-directory rules and
ignore-file patterns say — and that entry has PR limit 0, the `prodsec`
group, the security labels, and an allow rule of dependency-type `all` when
transitive security is enabled and `direct` otherwise. -/
theorem claim_c2_security_entry (limit : Int) (branch : String) (ts : Bool)
    (settings : Settings) (dm : DirectoryManifest) (d : String)
    (fs : List (String × String)) (m : String)
    (hnd : (dm.map Prod.fst).Nodup) (hmem : (d, fs) ∈ dm)
    (hm : m ∈ fs.map Prod.fst) :
    ((main ⟨limit, branch, ts⟩ settings dm).updates.filter
        (fun p => p.2.directory == d && p.2.package_ecosystem == m &&
          isSecurityUpdate p.2) =
      [(entryComment d m "security",
        create_security_update_entry m d (scheduleFor m) ts
          (add_registries settings.registries).2)]) ∧
    (create_security_update_entry m d (scheduleFor m) ts
      (add_registries settings.registries).2).open_pull_requests_limit = 0 ∧
    (create_security_update_entry m d (scheduleFor m) ts
      (add_registries settings.registries).2).groups =
      some [("prodsec",
        { applies_to := "security-updates", update_types := ["minor", "patch"] })] ∧
    (create_security_update_entry m d (scheduleFor m) ts
      (add_registries settings.registries).2).labels =
      ["security-update", "dependencies"] ∧
    (create_security_update_entry m d (scheduleFor m) ts
      (add_registries settings.registries).2).allow =
      [if ts then "all" else "direct"] := by
  refine ⟨?_, rfl, rfl, rfl, rfl⟩
  rw [filter_main_at_pair ⟨limit, branch, ts⟩ settings dm d fs m
    isSecurityUpdate (fun e => rfl) hnd hmem hm]
  rw [filter_isSecurity_entriesFor]
  rw [List.map_cons, List.map_nil]
  rw [addIgnoresEntry_prodsec _ _ hasGroupProdsec_security]

theorem claim_c2_witness :
    ((main ⟨0, "main", true⟩ ⟨[], ["/"], ["*"], []⟩
        [("/", [("pip", "requirements.txt")])]).updates.filter
      (fun p => p.2.directory == "/" && p.2.package_ecosystem == "pip" &&
        isSecurityUpdate p.2) =
      [(entryComment "/" "pip" "security",
        create_security_update_entry "pip" "/" (scheduleFor "pip") true
          (add_registries []).2)]) ∧
    (create_security_update_entry "pip" "/" (scheduleFor "pip") true
      (add_registries []).2).open_pull_requests_limit = 0 := by
  have h := claim_c2_security_entry 0 "main" true ⟨[], ["/"], ["*"], []⟩
    [("/", [("pip", "requirements.txt")])] "/" [("pip", "requirements.txt")]
    "pip" (by decide) (by decide) (by decide)
  exact ⟨h.1, h.2.1⟩

/-- C9: every emitted entry is preceded by the single-line comment
` <directory> <ecosystem> <version|security> updates`, where `<directory>`
is the slash-trimmed display form of the entry's own (canonical,
`/`-prefixed) directory field, with `/` standing for the root. -/
theorem claim_c9_comments (args : Args) (settings : Settings)
    (dm : DirectoryManifest) :
    ∀ p ∈ (main args settings dm).updates,
      p.1 = entryComment p.2.directory p.2.package_ecosystem
        (if isSecurityUpdate p.2 then "security" else "version") := by
  intro p hp
  rw [main_updates_eq_map] at hp
  obtain ⟨q, hq, rfl⟩ := List.mem_map.mp hp
  obtain ⟨d, fs, m, -, -, hqe⟩ := mem_mainUpdates hq
  obtain ⟨hdir, heco, hcases⟩ := mem_entriesFor hqe
  have hd2 : (addIgnoresEntry settings.dependencies q.2).directory = d := by
    rw [addIgnoresEntry_directory, hdir]
  have he2 : (addIgnoresEntry settings.dependencies q.2).package_ecosystem = m := by
    rw [addIgnoresEntry_package_ecosystem, heco]
  rcases hcases with ⟨hann, hlab, -, -⟩ | hsec
  · have h3 : isSecurityUpdate (addIgnoresEntry settings.dependencies q.2) =
        false := by
      unfold isSecurityUpdate
      rw [addIgnoresEntry_labels, hlab]
      decide
    show q.1 = entryComment _ _ _
    rw [hann, hd2, he2, h3]
    rfl
  · have h3 : isSecurityUpdate (addIgnoresEntry settings.dependencies q.2) =
        true := by
      unfold isSecurityUpdate
      rw [addIgnoresEntry_labels, hsec]
      rfl
    show q.1 = entryComment _ _ _
    rw [hd2, he2, h3, hsec]
    rfl

theorem claim_c9_witness :
    (" / pip security updates",
      create_security_update_entry "pip" "/" (scheduleFor "pip") false []).1 =
    entryComment
      (" / pip security updates",
        create_security_update_entry "pip" "/" (scheduleFor "pip") false
          []).2.directory
      (" / pip security updates",
        create_security_update_entry "pip" "/" (scheduleFor "pip") false
          []).2.package_ecosystem
      (if isSecurityUpdate
          (" / pip security updates",
            create_security_update_entry "pip" "/" (scheduleFor "pip") false
              []).2 then "security" else "version") := by
  apply claim_c9_comments ⟨1, "main", false⟩ ⟨[], [], [], []⟩
    [("/", [("pip", "requirements.txt")])]
  decide

/-- C8: with the scan result and settings fixed, turning the
transitive-security flag on changes exactly one thing in the output
document: every security entry's allow rule flips from dependency-type
`direct` to `all` (the version, the registries section, the annotations,
the version-update entries, and every other field of the security entries
are unchanged). -/
theorem claim_c8_transitive_frame (limit : Int) (branch : String)
    (settings : Settings) (dm : DirectoryManifest) :
    (main ⟨limit, branch, true⟩ settings dm =
      { main ⟨limit, branch, false⟩ settings dm with
        updates := (main ⟨limit, branch, false⟩ settings dm).updates.map
          (fun p => (p.1, securityAllowAll p.2)) }) ∧
    (∀ p ∈ (main ⟨limit, branch, false⟩ settings dm).updates,
      hasGroupProdsec p.2 = true → p.2.allow = ["direct"]) ∧
    (∀ p ∈ (main ⟨limit, branch, true⟩ settings dm).updates,
      hasGroupProdsec p.2 = true → p.2.allow = ["all"]) := by
  refine ⟨OutputDocument.ext_of _ _ rfl rfl ?_, ?_, ?_⟩
  · rw [main_updates_eq_map ⟨limit, branch, true⟩ settings dm,
      main_updates_eq_map ⟨limit, branch, false⟩ settings dm]
    rw [mainUpdates_transitive, List.map_map, List.map_map]
    apply List.map_congr_left
    intro p hp
    simp only [Function.comp_apply]
    show (p.1, addIgnoresEntry settings.dependencies (securityAllowAll p.2)) =
      (p.1, securityAllowAll (addIgnoresEntry settings.dependencies p.2))
    rw [addIgnoresEntry_securityAllowAll]
  · intro p hp hps
    rw [main_updates_eq_map] at hp
    obtain ⟨q, hq, rfl⟩ := List.mem_map.mp hp
    obtain ⟨d, fs, m, -, -, hqe⟩ := mem_mainUpdates hq
    obtain ⟨-, -, hcases⟩ := mem_entriesFor hqe
    rcases hcases with ⟨-, -, hnp, -⟩ | hsec
    · rw [show hasGroupProdsec (q.1,
          addIgnoresEntry settings.dependencies q.2).2 =
          hasGroupProdsec q.2 from
          hasGroupProdsec_congr (addIgnoresEntry_groups _ _), hnp] at hps
      cases hps
    · show (addIgnoresEntry settings.dependencies q.2).allow = _
      rw [addIgnoresEntry_allow, hsec]
      rfl
  · intro p hp hps
    rw [main_updates_eq_map] at hp
    obtain ⟨q, hq, rfl⟩ := List.mem_map.mp hp
    obtain ⟨d, fs, m, -, -, hqe⟩ := mem_mainUpdates hq
    obtain ⟨-, -, hcases⟩ := mem_entriesFor hqe
    rcases hcases with ⟨-, -, hnp, -⟩ | hsec
    · rw [show hasGroupProdsec (q.1,
          addIgnoresEntry settings.dependencies q.2).2 =
          hasGroupProdsec q.2 from
          hasGroupProdsec_congr (addIgnoresEntry_groups _ _), hnp] at hps
      cases hps
    · show (addIgnoresEntry settings.dependencies q.2).allow = _
      rw [addIgnoresEntry_allow, hsec]
      rfl

theorem claim_c8_witness :
    (main ⟨1, "main", true⟩ ⟨[], [], [], []⟩
        [("/", [("pip", "requirements.txt")])] =
      { main ⟨1, "main", false⟩ ⟨[], [], [], []⟩
          [("/", [("pip", "requirements.txt")])] with
        updates := (main ⟨1, "main", false⟩ ⟨[], [], [], []⟩
            [("/", [("pip", "requirements.txt")])]).updates.map
          (fun p => (p.1, securityAllowAll p.2)) }) ∧
    (" / pip security updates",
        create_security_update_entry "pip" "/" (scheduleFor "pip") false
          []).2.allow = ["direct"] := by
  have h := claim_c8_transitive_frame 1 "main" ⟨[], [], [], []⟩
    [("/", [("pip", "requirements.txt")])]
  refine ⟨h.1, ?_⟩
  exact h.2.1 _ (by decide) rfl

/-- C4: the emitted list visits directories in sorted order; within each
directory the security entries (hence the visited ecosystems) enumerate the
distinct ecosystems of that directory exactly once, in sorted order,
collapsing duplicate (ecosystem, filename) records; in particular two
manifest files for the same ecosystem in one directory yield exactly 2
entries (one version plus one security), not 4. -/
theorem claim_c4_ordering (args : Args) (settings : Settings)
    (dm : DirectoryManifest) (hnd : (dm.map Prod.fst).Nodup) :
    ((main args settings dm).updates.map (fun p => p.2.directory)).Pairwise
      strLeR ∧
    (∀ d fs, (d, fs) ∈ dm →
      ((main args settings dm).updates.filter
          (fun p => p.2.directory == d && isSecurityUpdate p.2)).map
        (fun p => p.2.package_ecosystem) =
        sortedUniqueManagers (fs.map Prod.fst) ∧
      (sortedUniqueManagers (fs.map Prod.fst)).Nodup ∧
      (sortedUniqueManagers (fs.map Prod.fst)).Pairwise strLeR) ∧
    ((main ⟨1, "main", false⟩ ⟨[], [], [], []⟩
        [("/x", [("github-actions", "ci.yml"),
          ("github-actions", "release.yml")])]).updates.length = 2 ∧
      (main ⟨1, "main", false⟩ ⟨[], [], [], []⟩
        [("/x", [("github-actions", "ci.yml"),
          ("github-actions", "release.yml")])]).updates.countP
        (fun p => isVersionUpdate p.2) = 1 ∧
      (main ⟨1, "main", false⟩ ⟨[], [], [], []⟩
        [("/x", [("github-actions", "ci.yml"),
          ("github-actions", "release.yml")])]).updates.countP
        (fun p => isSecurityUpdate p.2) = 1) := by
  refine ⟨?_, ?_, by decide⟩
  · rw [main_updates_eq_map, List.map_map]
    have hmc : List.map
        ((fun p : String × Entry => p.2.directory) ∘
          (fun p : String × Entry =>
            (p.1, addIgnoresEntry settings.dependencies p.2)))
        (mainUpdates args settings.directories settings.file_patterns
          (add_registries settings.registries).2 dm) =
      List.map (fun p : String × Entry => p.2.directory)
        (mainUpdates args settings.directories settings.file_patterns
          (add_registries settings.registries).2 dm) := by
      apply List.map_congr_left
      intro x hx
      simp only [Function.comp_apply]
      rw [addIgnoresEntry_directory]
    rw [hmc]
    unfold mainUpdates
    rw [List.map_flatMap]
    apply sorted_flatMap_const (fun a => a.1)
    · have hs := List.sorted_insertionSort keyLeR dm
      exact List.pairwise_map.mpr hs
    · intro a ha s hs
      obtain ⟨p, hp, rfl⟩ := List.mem_map.mp hs
      obtain ⟨m2, hm2, hpe⟩ := List.mem_flatMap.mp hp
      exact (mem_entriesFor hpe).1
  · intro d fs hmemd
    refine ⟨?_, nodup_sortedUniqueManagers _, sorted_sortedUniqueManagers _⟩
    rw [filter_main_at_dir args settings dm d fs isSecurityUpdate
      (fun e => rfl) hnd hmemd]
    rw [List.map_map, List.map_flatMap]
    have hfun : (fun m2 => List.map
        ((fun p : String × Entry => p.2.package_ecosystem) ∘
          (fun p : String × Entry =>
            (p.1, addIgnoresEntry settings.dependencies p.2)))
        ((entriesFor args.open_pull_requests_limit args.main_branch
          args.transitive_security settings.directories settings.file_patterns
          (add_registries settings.registries).2 d fs m2).filter
          (fun p => isSecurityUpdate p.2))) = fun m2 => [m2] := by
      funext m2
      rw [filter_isSecurity_entriesFor, List.map_cons, List.map_nil]
      simp only [Function.comp_apply]
      rw [addIgnoresEntry_prodsec _ _ hasGroupProdsec_security]
      rfl
    rw [hfun, flatMap_pure]

theorem claim_c4_witness :
    ((main ⟨1, "main", false⟩ ⟨[], [], [], []⟩
        [("/", [("pip", "requirements.txt")]),
          ("/app", [("npm", "package.json")])]).updates.map
      (fun p => p.2.directory)).Pairwise strLeR ∧
    ((main ⟨1, "main", false⟩ ⟨[], [], [], []⟩
        [("/", [("pip", "requirements.txt")]),
          ("/app", [("npm", "package.json")])]).updates.filter
        (fun p => p.2.directory == "/" && isSecurityUpdate p.2)).map
      (fun p => p.2.package_ecosystem) = sortedUniqueManagers ["pip"] := by
  have h := claim_c4_ordering ⟨1, "main", false⟩ ⟨[], [], [], []⟩
    [("/", [("pip", "requirements.txt")]), ("/app", [("npm", "package.json")])]
    (by decide)
  exact ⟨h.1, (h.2.1 "/" [("pip", "requirements.txt")] (by decide)).1⟩

theorem dictInsert_append {β : Type} (mp : List (String × β)) (k : String)
    (v : β) (h : k ∉ mp.map Prod.fst) : dictInsert mp k v = mp ++ [(k, v)] := by
  have hne : mp.any (fun p => p.1 == k) = false := by
    rw [List.any_eq_false]
    intro p hp hpk
    exact h (beq_iff_eq.mp hpk ▸ List.mem_map_of_mem Prod.fst hp)
  unfold dictInsert
  rw [hne]
  simp

/-- The display name a surviving registry is stored under. -/
def regNameStr (r : RegDecl) : String := (regName r).getD ""

theorem addRegistriesLoop_spec (configs : List RegDecl)
    (sa : List (String × List (String × RegValue)))
    (ma : List (String × RegistryInfo))
    (hnd : ((configs.filter regValid).map regNameStr).Nodup)
    (hsa : ∀ r ∈ configs, regValid r = true → regNameStr r ∉ sa.map Prod.fst)
    (hma : ∀ r ∈ configs, regValid r = true → regNameStr r ∉ ma.map Prod.fst) :
    addRegistriesLoop configs sa ma =
      (sa ++ (configs.filter regValid).map
        (fun r => (regNameStr r, publicConfig r)),
       ma ++ (configs.filter regValid).map
        (fun r => (regNameStr r, registryInfoOf r))) := by
  induction configs generalizing sa ma with
  | nil => simp [addRegistriesLoop]
  | cons r rest ih =>
    unfold addRegistriesLoop
    cases hn : regName r with
    | none =>
      have hv : regValid r = false := by simp [regValid, hn]
      rw [List.filter_cons_of_neg (by simp [hv])] at hnd ⊢
      exact ih sa ma hnd
        (fun r2 h2 hv2 => hsa r2 (List.mem_cons_of_mem _ h2) hv2)
        (fun r2 h2 hv2 => hma r2 (List.mem_cons_of_mem _ h2) hv2)
    | some name =>
      by_cases hf : (["name", "type", "url"].all
          (fun f => r.fields.any (fun p => p.1 == f))) = true
      · show (if (["name", "type", "url"].all
            (fun f => r.fields.any (fun p => p.1 == f))) = true then
            addRegistriesLoop rest (dictInsert sa name (publicConfig r))
              (dictInsert ma name (registryInfoOf r))
          else addRegistriesLoop rest sa ma) = _
        rw [if_pos hf]
        have hv : regValid r = true := by simp [regValid, hn, hf]
        have hns : regNameStr r = name := by simp [regNameStr, hn]
        rw [List.filter_cons_of_pos hv] at hnd ⊢
        rw [List.map_cons, List.nodup_cons] at hnd
        rw [dictInsert_append sa name (publicConfig r)
          (hns ▸ hsa r (List.mem_cons_self _ _) hv)]
        rw [dictInsert_append ma name (registryInfoOf r)
          (hns ▸ hma r (List.mem_cons_self _ _) hv)]
        rw [ih (sa ++ [(name, publicConfig r)]) (ma ++ [(name, registryInfoOf r)])
          hnd.2 ?_ ?_]
        · rw [List.map_cons, hns]
          simp [List.append_assoc, hns]
        · intro r2 h2 hv2
          rw [List.map_append, List.mem_append]
          rintro (hin | hin)
          · exact hsa r2 (List.mem_cons_of_mem _ h2) hv2 hin
          · have : regNameStr r2 = name := by simpa using hin
            exact hnd.1 (hns ▸ this ▸ List.mem_map_of_mem regNameStr
              (List.mem_filter.mpr ⟨h2, hv2⟩))
        · intro r2 h2 hv2
          rw [List.map_append, List.mem_append]
          rintro (hin | hin)
          · exact hma r2 (List.mem_cons_of_mem _ h2) hv2 hin
          · have : regNameStr r2 = name := by simpa using hin
            exact hnd.1 (hns ▸ this ▸ List.mem_map_of_mem regNameStr
              (List.mem_filter.mpr ⟨h2, hv2⟩))
      · show (if (["name", "type", "url"].all
            (fun f => r.fields.any (fun p => p.1 == f))) = true then
            addRegistriesLoop rest (dictInsert sa name (publicConfig r))
              (dictInsert ma name (registryInfoOf r))
          else addRegistriesLoop rest sa ma) = _
        rw [if_neg hf]
        have hv : regValid r = false := by
          simp only [regValid, hn, Option.isSome_some, Bool.true_and]
          exact Bool.eq_false_iff.mpr hf
        rw [List.filter_cons_of_neg (by simp [hv])] at hnd ⊢
        exact ih sa ma hnd
          (fun r2 h2 hv2 => hsa r2 (List.mem_cons_of_mem _ h2) hv2)
          (fun r2 h2 hv2 => hma r2 (List.mem_cons_of_mem _ h2) hv2)

/-- C7: a declared registry with a missing (or falsy) name, or missing any
of the name/type/url keys, is skipped; each surviving registry contributes
its declared fields minus `name` and `applies-to` as its public config; and
the output document carries a `registries` section exactly when at least one
registry survives validation. -/
theorem claim_c7_registry_validation (configs : List RegDecl)
    (hnd : ((configs.filter regValid).map regNameStr).Nodup) :
    (add_registries configs).1 = (configs.filter regValid).map
      (fun r => (regNameStr r, publicConfig r)) ∧
    (add_registries configs).2 = (configs.filter regValid).map
      (fun r => (regNameStr r, registryInfoOf r)) ∧
    (∀ args (settings : Settings) dm, settings.registries = configs →
      ((main args settings dm).registries = none ↔
        ∀ r ∈ configs, regValid r = false)) := by
  have hloop : (add_registries configs).1 = (configs.filter regValid).map
      (fun r => (regNameStr r, publicConfig r)) ∧
    (add_registries configs).2 = (configs.filter regValid).map
      (fun r => (regNameStr r, registryInfoOf r)) := by
    unfold add_registries
    by_cases he : configs.isEmpty
    · obtain rfl : configs = [] := List.isEmpty_iff.mp he
      simp
    · rw [if_neg he]
      rw [addRegistriesLoop_spec configs [] [] hnd (by simp) (by simp)]
      simp
  refine ⟨hloop.1, hloop.2, ?_⟩
  intro args settings dm hset
  have hreg : (main args settings dm).registries =
      if (add_registries settings.registries).1.isEmpty then none
      else some (add_registries settings.registries).1 := rfl
  rw [hreg, hset]
  constructor
  · intro hnone
    by_cases hie : (add_registries configs).1.isEmpty
    · intro r hr
      have h1 := hloop.1
      rw [List.isEmpty_iff] at hie
      rw [hie] at h1
      have hfil : configs.filter regValid = [] := by
        cases hfc : configs.filter regValid with
        | nil => rfl
        | cons a t => rw [hfc] at h1; cases h1
      cases hrv : regValid r with
      | false => rfl
      | true =>
        have : r ∈ configs.filter regValid := List.mem_filter.mpr ⟨hr, hrv⟩
        rw [hfil] at this
        cases this
    · rw [if_neg hie] at hnone
      cases hnone
  · intro hall
    have hfil : configs.filter regValid = [] := by
      apply List.filter_eq_nil_iff.mpr
      intro r hr
      rw [hall r hr]
      simp
    have h1 := hloop.1
    rw [hfil] at h1
    rw [if_pos (by rw [h1]; rfl)]

theorem claim_c7_witness :
    (add_registries
        [⟨[("name", RegValue.str "pypi"), ("type", RegValue.str "python-index"),
          ("url", RegValue.str "https://x"),
          ("applies-to", RegValue.strList ["pip"])]⟩,
        ⟨[("type", RegValue.str "maven-repository")]⟩]).1 =
      List.map (fun r => (regNameStr r, publicConfig r))
        (List.filter regValid
          ([⟨[("name", RegValue.str "pypi"),
            ("type", RegValue.str "python-index"),
            ("url", RegValue.str "https://x"),
            ("applies-to", RegValue.strList ["pip"])]⟩,
          ⟨[("type", RegValue.str "maven-repository")]⟩] : List RegDecl)) := by
  exact (claim_c7_registry_validation
    [⟨[("name", RegValue.str "pypi"), ("type", RegValue.str "python-index"),
      ("url", RegValue.str "https://x"),
      ("applies-to", RegValue.strList ["pip"])]⟩,
    ⟨[("type", RegValue.str "maven-repository")]⟩] (by decide)).1

end DependabotConfigurator
